import Mathlib

/-!
Verification of the ObjectQueue intrusive linked queue.

The JavaScript source (src/index.js) stores the link of each entry as a
property of the entry object itself, keyed by a per-queue-instance private
symbol (`this._next = Symbol('#next')` in the constructor).  We model the
JavaScript object world as a heap mapping (object id, symbol id) to the
stored property value.  A property value relevant to this code is one of
`undefined` (property absent — the code only ever tests `!== undefined`,
so deleting the property and storing `undefined` are indistinguishable to
it), `null` (the chain terminator) or a reference to another object; we
model it as `Option (Option Nat)`: `none` = undefined/absent,
`some none` = null, `some (some k)` = reference to object `k`.

Queue entries handed to the public operations are arbitrary JavaScript
values; the code distinguishes reference types (objects and functions,
with `null` excluded explicitly because `typeof null === 'object'`) from
value types, `null` and `undefined`.
-/

/-- JavaScript value passed to the queue operations: `ref id` is a
reference type (object or function) identified by identity, `prim` is a
value type (number, string, boolean, symbol). -/
inductive JSVal where
  | jsNull
  | jsUndefined
  | ref (id : Nat)
  | prim (n : Nat)
deriving DecidableEq, Repr

/-- The JavaScript object heap restricted to what the queue touches:
`props objId symId` is the value of the property keyed by symbol `symId`
on object `objId`. -/
structure Heap where
  props : Nat → Nat → Option (Option Nat)

/-- Writing `obj[sym] = v` (for `v = none`, deleting the property or
assigning `undefined`, which this code never tells apart). -/
def Heap.setProp (h : Heap) (objId symId : Nat) (v : Option (Option Nat)) : Heap :=
  ⟨fun i s => if i = objId ∧ s = symId then v else h.props i s⟩

/-- The queue instance state: `head`, `tail`, `size` as in the
constructor, and `nextSym`, the identity of the fresh private symbol
`Symbol('#next')` created for this instance. -/
structure ObjectQueue where
  head : Option Nat
  tail : Option Nat
  size : Int
  nextSym : Nat
deriving DecidableEq, Repr

/-- `new ObjectQueue()` with fresh symbol `s`. -/
def ObjectQueue.mk0 (s : Nat) : ObjectQueue := ⟨none, none, 0, s⟩

/-- The validity test used by every operation:
`(typeof entry !== 'object' && typeof entry !== 'function') || entry === null`
rejects everything except non-null reference types. -/
def JSVal.refId : JSVal → Option Nat
  | .ref id => some id
  | _ => none

/-- ObjectQueue.prototype.has: false for invalid input, else
`entry[this._next] !== undefined`. -/
def ObjectQueue.has (q : ObjectQueue) (h : Heap) (v : JSVal) : Bool :=
  match v.refId with
  | none => false
  | some id => (h.props id q.nextSym).isSome

/-- ObjectQueue.prototype.getNext: null for invalid input, else
`entry[this._next] || null` (both `undefined` and `null` collapse to
null; a stored object reference is truthy). -/
def ObjectQueue.getNext (q : ObjectQueue) (h : Heap) (v : JSVal) : Option Nat :=
  match v.refId with
  | none => none
  | some id => (h.props id q.nextSym).join

/-- ObjectQueue.prototype.enqueue.  Returns the boolean result together
with the updated queue and heap.  On the non-empty branch the source runs
`tail[nextSymbol] = entry; this.tail = tail[nextSymbol]`, i.e. the new
tail is the entry just written; then `entry[nextSymbol] = null`. -/
def ObjectQueue.enqueue (q : ObjectQueue) (h : Heap) (v : JSVal) :
    Bool × ObjectQueue × Heap :=
  match v.refId with
  | none => (false, q, h)
  | some id =>
    if (h.props id q.nextSym).isSome then
      (false, q, h)
    else
      match q.tail with
      | none =>
        (true, { q with head := some id, tail := some id, size := q.size + 1 },
          h.setProp id q.nextSym (some none))
      | some t =>
        (true, { q with tail := some id, size := q.size + 1 },
          (h.setProp t q.nextSym (some (some id))).setProp id q.nextSym (some none))

/-- ObjectQueue.prototype.enqueueMany: enqueue each element in order,
counting the calls that returned true. -/
def ObjectQueue.enqueueMany (q : ObjectQueue) (h : Heap) (vs : List JSVal) :
    Nat × ObjectQueue × Heap :=
  match vs with
  | [] => (0, q, h)
  | v :: rest =>
    let r := q.enqueue h v
    let r' := ObjectQueue.enqueueMany r.2.1 r.2.2 rest
    (r'.1 + (if r.1 then 1 else 0), r'.2)

/-- ObjectQueue.prototype.dequeue: on empty queue return null; otherwise
remove the head, advance `head` to its successor, clear `tail` when the
queue became empty, decrement `size` and delete the removed entry's link
property.  (`next` is read as `entry[this._next]`; in every reachable
state the head's link property is set, so collapsing a hypothetical
`undefined` to the terminator is unobservable.) -/
def ObjectQueue.dequeue (q : ObjectQueue) (h : Heap) :
    Option Nat × ObjectQueue × Heap :=
  match q.head with
  | none => (none, q, h)
  | some hd =>
    let next := (h.props hd q.nextSym).join
    (some hd,
      { q with head := next,
               tail := if next = none then none else q.tail,
               size := q.size - 1 },
      h.setProp hd q.nextSym none)

/-- The loop body of ObjectQueue.prototype.clear: walk the chain from
`cur`, deleting each visited entry's link property.  The JavaScript loop
terminates because the chain from `head` is finite (structural
invariant); `fuel` bounds the walk and `size` steps always suffice. -/
def ObjectQueue.clearWalk (symId : Nat) (h : Heap) (cur : Option Nat) (fuel : Nat) : Heap :=
  match cur, fuel with
  | none, _ => h
  | some _, 0 => h
  | some e, fuel + 1 =>
    let nx := (h.props e symId).join
    ObjectQueue.clearWalk symId (h.setProp e symId none) nx fuel

/-- ObjectQueue.prototype.clear: delete every member's link property,
then reset `head`, `tail`, `size`. -/
def ObjectQueue.clear (q : ObjectQueue) (h : Heap) : ObjectQueue × Heap :=
  ({ q with head := none, tail := none, size := 0 },
    ObjectQueue.clearWalk q.nextSym h q.head q.size.toNat)

/-- The scan loop of ObjectQueue.prototype.delete: walk from `cur`
tracking `prev`; on finding `target` (identity comparison), unlink it —
point `prev`'s link (or `head` when `prev` is null) at the captured
successor, move `tail` back to `prev` when the successor is null,
decrement `size`, delete the target's link property and return true.
Falling off the chain returns false.  As in `clearWalk`, `fuel` bounds
the walk; `size` steps suffice in every reachable state. -/
def ObjectQueue.deleteWalk (symId target : Nat) (q : ObjectQueue) (h : Heap)
    (prev cur : Option Nat) (fuel : Nat) : Bool × ObjectQueue × Heap :=
  match cur, fuel with
  | none, _ => (false, q, h)
  | some _, 0 => (false, q, h)
  | some c, fuel + 1 =>
    let next := (h.props c symId).join
    if c = target then
      let q1 :=
        match prev with
        | none => { q with head := next }
        | some _ => q
      let h1 :=
        match prev with
        | none => h
        | some p => h.setProp p symId (some next)
      let q2 := if next = none then { q1 with tail := prev } else q1
      (true, { q2 with size := q2.size - 1 }, h1.setProp c symId none)
    else
      ObjectQueue.deleteWalk symId target q h (some c) next fuel

/-- ObjectQueue.prototype.delete: reject invalid input; fast-reject when
`entry[nextSymbol] === undefined` (not a member); otherwise scan from
`head`. -/
def ObjectQueue.delete (q : ObjectQueue) (h : Heap) (v : JSVal) :
    Bool × ObjectQueue × Heap :=
  match v.refId with
  | none => (false, q, h)
  | some id =>
    if (h.props id q.nextSym).isSome then
      ObjectQueue.deleteWalk q.nextSym id q h none q.head q.size.toNat
    else
      (false, q, h)

/-- The loop of ObjectQueue.prototype.toArray: collect entries from `cur`
following links (`entry = entry[nextSymbol]` in the for-update). -/
def ObjectQueue.walk (symId : Nat) (h : Heap) (cur : Option Nat) (fuel : Nat) : List Nat :=
  match cur, fuel with
  | none, _ => []
  | some _, 0 => []
  | some e, fuel + 1 => e :: ObjectQueue.walk symId h ((h.props e symId).join) fuel

/-- ObjectQueue.prototype.toArray. -/
def ObjectQueue.toArray (q : ObjectQueue) (h : Heap) : List Nat :=
  ObjectQueue.walk q.nextSym h q.head q.size.toNat

/-- The generator ObjectQueue.prototype[Symbol.iterator]: it captures
`next = entry[nextSymbol]` before each `yield entry`.  `iterWalk` is the
sequence of yielded entries of one full pass with no interleaved
mutation. -/
def ObjectQueue.iterWalk (symId : Nat) (h : Heap) (cur : Option Nat) (fuel : Nat) : List Nat :=
  match cur, fuel with
  | none, _ => []
  | some _, 0 => []
  | some e, fuel + 1 =>
    let nx := (h.props e symId).join
    e :: ObjectQueue.iterWalk symId h nx fuel

/-- A full pass of the iterator from the current head. -/
def ObjectQueue.iterAll (q : ObjectQueue) (h : Heap) : List Nat :=
  ObjectQueue.iterWalk q.nextSym h q.head q.size.toNat

/-- The enqueue method of the minimal variant (src/index.ts).  Its state
and code are those of the full variant's enqueue; the class differs by
lacking `delete`, `enqueueMany`, `toSet` and the iterator, and by its
`dequeue`/`clear` assigning `undefined` instead of deleting the property
(indistinguishable here, see the heap model). -/
def ObjectQueueTS.enqueue (q : ObjectQueue) (h : Heap) (v : JSVal) :
    Bool × ObjectQueue × Heap :=
  match v.refId with
  | none => (false, q, h)
  | some id =>
    if (h.props id q.nextSym).isSome then
      (false, q, h)
    else
      match q.tail with
      | none =>
        (true, { q with head := some id, tail := some id, size := q.size + 1 },
          h.setProp id q.nextSym (some none))
      | some t =>
        (true, { q with tail := some id, size := q.size + 1 },
          (h.setProp t q.nextSym (some (some id))).setProp id q.nextSym (some none))

/-- Repeated dequeue: the list of the results of `n` successive dequeue
calls, threading the queue and heap. -/
def dequeueRun : Nat → ObjectQueue → Heap → List (Option Nat)
  | 0, _, _ => []
  | n + 1, q, h =>
    (q.dequeue h).1 :: dequeueRun n (q.dequeue h).2.1 (q.dequeue h).2.2

/-- A chain segment: starting from pointer `c`, following the link
properties keyed by `symId` visits exactly the entries of `xs` and leaves
the walk at pointer `d`. -/
inductive ChainSeg (h : Heap) (symId : Nat) : Option Nat → List Nat → Option Nat → Prop
  | nil (c : Option Nat) : ChainSeg h symId c [] c
  | cons {x : Nat} {nx d : Option Nat} {xs : List Nat} :
      h.props x symId = some nx → ChainSeg h symId nx xs d →
      ChainSeg h symId (some x) (x :: xs) d

/-- The structural invariant of a queue instance with member list `xs`
(head to tail): the chain from `head` visits `xs` and ends at the null
terminator, `tail` is the last member, `size` counts the members, no
member repeats, and the link property keyed by this instance's symbol is
set exactly on the members. -/
structure QInv (q : ObjectQueue) (h : Heap) (xs : List Nat) : Prop where
  chain : ChainSeg h q.nextSym q.head xs none
  tail_eq : q.tail = xs.getLast?
  size_eq : q.size = xs.length
  nodup : xs.Nodup
  mem_iff : ∀ x, (h.props x q.nextSym).isSome ↔ x ∈ xs

/-- Queue states reachable by public operations from a freshly
constructed queue.  The constructor's symbol is fresh: no object carries
a property keyed by it.  The `frame` rule lets unrelated code (other
queue instances included) rewrite properties keyed by other symbols. -/
inductive Reachable : ObjectQueue → Heap → Prop
  | init (s : Nat) (h : Heap) (fresh : ∀ i, h.props i s = none) :
      Reachable (ObjectQueue.mk0 s) h
  | enq {q : ObjectQueue} {h : Heap} (v : JSVal) :
      Reachable q h → Reachable (q.enqueue h v).2.1 (q.enqueue h v).2.2
  | deq {q : ObjectQueue} {h : Heap} :
      Reachable q h → Reachable (q.dequeue h).2.1 (q.dequeue h).2.2
  | del {q : ObjectQueue} {h : Heap} (v : JSVal) :
      Reachable q h → Reachable (q.delete h v).2.1 (q.delete h v).2.2
  | clr {q : ObjectQueue} {h : Heap} :
      Reachable q h → Reachable (q.clear h).1 (q.clear h).2
  | frame {q : ObjectQueue} {h h' : Heap} :
      Reachable q h → (∀ i, h'.props i q.nextSym = h.props i q.nextSym) →
      Reachable q h'

@[simp] theorem Heap.setProp_same (h : Heap) (objId symId : Nat) (v : Option (Option Nat)) :
    (h.setProp objId symId v).props objId symId = v := by
  simp [Heap.setProp]

theorem Heap.setProp_other (h : Heap) (objId symId : Nat) (v : Option (Option Nat))
    (i s : Nat) (hne : ¬(i = objId ∧ s = symId)) :
    (h.setProp objId symId v).props i s = h.props i s := by
  simp [Heap.setProp, hne]

theorem ChainSeg.props_agree {h h' : Heap} {symId : Nat} {c d : Option Nat} {xs : List Nat}
    (hag : ∀ x ∈ xs, h'.props x symId = h.props x symId)
    (hc : ChainSeg h symId c xs d) : ChainSeg h' symId c xs d := by
  induction hc with
  | nil c => exact .nil c
  | cons hx _ ih =>
    exact .cons (by rw [hag _ (List.mem_cons_self _ _)]; exact hx)
      (ih fun x hx => hag x (List.mem_cons_of_mem _ hx))

theorem ChainSeg.append_iff {h : Heap} {symId : Nat} {c d : Option Nat} {xs ys : List Nat} :
    ChainSeg h symId c (xs ++ ys) d ↔
      ∃ m, ChainSeg h symId c xs m ∧ ChainSeg h symId m ys d := by
  induction xs generalizing c with
  | nil =>
    constructor
    · intro hc; exact ⟨c, .nil c, hc⟩
    · rintro ⟨m, hm, hc⟩; cases hm; exact hc
  | cons x xs ih =>
    constructor
    · intro hc
      cases hc with
      | cons hx htl =>
        obtain ⟨m, h1, h2⟩ := ih.mp htl
        exact ⟨m, .cons hx h1, h2⟩
    · rintro ⟨m, hm, hc⟩
      cases hm with
      | cons hx htl => exact .cons hx (ih.mpr ⟨m, htl, hc⟩)

theorem ChainSeg.head_some {h : Heap} {symId : Nat} {c d : Option Nat}
    {x : Nat} {xs : List Nat} (hc : ChainSeg h symId c (x :: xs) d) : c = some x := by
  cases hc; rfl

theorem ChainSeg.nil_ptr {h : Heap} {symId : Nat} {c d : Option Nat}
    (hc : ChainSeg h symId c [] d) : c = d := by
  cases hc; rfl

/-- A chain ending at the terminator with an empty visited list starts at
the terminator, and conversely a chain from the terminator visits
nothing. -/
theorem ChainSeg.none_start {h : Heap} {symId : Nat} {xs : List Nat} {d : Option Nat}
    (hc : ChainSeg h symId none xs d) : xs = [] ∧ d = none := by
  cases hc with
  | nil => exact ⟨rfl, rfl⟩

theorem singleton_seg {h : Heap} {symId : Nat} {x : Nat} {c d : Option Nat}
    (hc : ChainSeg h symId c [x] d) : c = some x ∧ h.props x symId = some d := by
  cases hc with
  | cons hx htl => exact ⟨rfl, by rwa [htl.nil_ptr] at hx⟩

theorem seg_of_props {h : Heap} {symId : Nat} {x : Nat} {d : Option Nat}
    (hx : h.props x symId = some d) : ChainSeg h symId (some x) [x] d :=
  .cons hx (.nil d)

/-- The toArray walk recovers the visited list of a chain when given at
least the chain's length as fuel. -/
theorem walk_of_chainSeg {h : Heap} {symId : Nat} {c d : Option Nat} {xs : List Nat}
    (hc : ChainSeg h symId c xs d) (hd : d = none) {fuel : Nat} (hf : xs.length ≤ fuel) :
    ObjectQueue.walk symId h c fuel = xs := by
  induction hc generalizing fuel with
  | nil c =>
    subst hd
    cases fuel <;> rfl
  | @cons x nx d xs hx htl ih =>
    cases fuel with
    | zero => simp at hf
    | succ fuel =>
      simp only [ObjectQueue.walk, hx, Option.join, Option.some_bind, id_eq]
      rw [ih hd (Nat.le_of_succ_le_succ (by simpa using hf))]

theorem QInv.head_eq {q : ObjectQueue} {h : Heap} {xs : List Nat} (hq : QInv q h xs) :
    q.head = xs.head? := by
  cases xs with
  | nil => exact hq.chain.nil_ptr
  | cons x xs => exact hq.chain.head_some

theorem QInv.toArray_eq {q : ObjectQueue} {h : Heap} {xs : List Nat} (hq : QInv q h xs) :
    q.toArray h = xs := by
  have hs : q.size.toNat = xs.length := by have := hq.size_eq; omega
  exact walk_of_chainSeg hq.chain rfl (by rw [hs])

theorem QInv.empty {s : Nat} {h : Heap} (fresh : ∀ i, h.props i s = none) :
    QInv (ObjectQueue.mk0 s) h [] := by
  refine ⟨.nil none, rfl, rfl, List.nodup_nil, ?_⟩
  intro x
  simp [ObjectQueue.mk0, fresh x]

theorem QInv.frame_agree {q : ObjectQueue} {h h' : Heap} {xs : List Nat} (hq : QInv q h xs)
    (hag : ∀ i, h'.props i q.nextSym = h.props i q.nextSym) : QInv q h' xs := by
  refine ⟨hq.chain.props_agree fun x _ => hag x, hq.tail_eq, hq.size_eq, hq.nodup, ?_⟩
  intro x
  rw [hag x]
  exact hq.mem_iff x

theorem enqueue_not_ref {q : ObjectQueue} {h : Heap} {v : JSVal} (hv : v.refId = none) :
    q.enqueue h v = (false, q, h) := by
  simp [ObjectQueue.enqueue, hv]

theorem enqueue_member {q : ObjectQueue} {h : Heap} {id : Nat}
    (hm : (h.props id q.nextSym).isSome) : q.enqueue h (.ref id) = (false, q, h) := by
  simp [ObjectQueue.enqueue, JSVal.refId, hm]

theorem enqueue_new {q : ObjectQueue} {h : Heap} {xs : List Nat} {id : Nat}
    (hq : QInv q h xs) (hnew : h.props id q.nextSym = none) :
    (q.enqueue h (.ref id)).1 = true ∧
      QInv (q.enqueue h (.ref id)).2.1 (q.enqueue h (.ref id)).2.2 (xs ++ [id]) := by
  have hid : id ∉ xs := fun hmem => by
    have hs := (hq.mem_iff id).mpr hmem
    rw [hnew] at hs
    simp at hs
  cases htail : q.tail with
  | none =>
    have hxs : xs = [] := by
      have ht := hq.tail_eq
      rw [htail] at ht
      exact List.getLast?_eq_none_iff.mp ht.symm
    subst hxs
    have hsz : q.size = 0 := by simpa using hq.size_eq
    have hres : q.enqueue h (.ref id) =
        (true, { q with head := some id, tail := some id, size := q.size + 1 },
          h.setProp id q.nextSym (some none)) := by
      simp [ObjectQueue.enqueue, JSVal.refId, hnew, htail]
    rw [hres]
    refine ⟨rfl, .cons (Heap.setProp_same h id q.nextSym (some none)) (.nil none),
      rfl, by simp [hsz], by simp, ?_⟩
    intro x
    by_cases hx : x = id
    · subst hx
      simp
    · rw [Heap.setProp_other _ _ _ _ _ _ (by simp [hx])]
      simpa [hx] using hq.mem_iff x
  | some t =>
    have hgl : xs.getLast? = some t := by rw [← hq.tail_eq, htail]
    obtain ⟨ys, hys⟩ := List.getLast?_eq_some_iff.mp hgl
    subst hys
    have htne : t ≠ id := fun he =>
      hid (he ▸ List.mem_append_right ys (List.mem_singleton.mpr rfl))
    have hidys : id ∉ ys := fun hm => hid (List.mem_append_left _ hm)
    have hnd := hq.nodup
    have htys : t ∉ ys := fun hm => (List.nodup_append.mp hnd).2.2 hm (by simp)
    obtain ⟨m, hseg1, hseg2⟩ := ChainSeg.append_iff.mp hq.chain
    obtain ⟨hm, hpt⟩ := singleton_seg hseg2
    subst hm
    have hres : q.enqueue h (.ref id) =
        (true, { q with tail := some id, size := q.size + 1 },
          (h.setProp t q.nextSym (some (some id))).setProp id q.nextSym (some none)) := by
      simp [ObjectQueue.enqueue, JSVal.refId, hnew, htail]
    rw [hres]
    set h2 := (h.setProp t q.nextSym (some (some id))).setProp id q.nextSym (some none) with hh2
    have hp_t : h2.props t q.nextSym = some (some id) := by
      rw [hh2, Heap.setProp_other _ _ _ _ _ _ (by simp [htne]), Heap.setProp_same]
    have hp_id : h2.props id q.nextSym = some none := by
      rw [hh2, Heap.setProp_same]
    have hp_other : ∀ x, x ≠ t → x ≠ id → h2.props x q.nextSym = h.props x q.nextSym := by
      intro x hxt hxi
      rw [hh2, Heap.setProp_other _ _ _ _ _ _ (by simp [hxi]),
        Heap.setProp_other _ _ _ _ _ _ (by simp [hxt])]
    refine ⟨rfl, ?_, ?_, ?_, ?_, ?_⟩
    · refine ChainSeg.append_iff.mpr ⟨some id, ?_, seg_of_props hp_id⟩
      refine ChainSeg.append_iff.mpr ⟨some t, ?_, seg_of_props hp_t⟩
      exact hseg1.props_agree fun x hx =>
        hp_other x (fun he => htys (he ▸ hx)) (fun he => hidys (he ▸ hx))
    · exact (List.getLast?_concat _).symm
    · have := hq.size_eq
      simp only [List.length_append, List.length_singleton] at this ⊢
      omega
    · rw [List.nodup_append]
      refine ⟨hnd, by simp, ?_⟩
      intro b hb hb2
      simp at hb2
      subst hb2
      exact hid hb
    · intro x
      by_cases hxi : x = id
      · subst hxi
        simp [hp_id]
      · by_cases hxt : x = t
        · subst hxt
          simp [hp_t, List.mem_append]
        · rw [hp_other x hxt hxi]
          have h0 := hq.mem_iff x
          constructor
          · intro hs
            exact List.mem_append_left _ ((h0.mp hs))
          · intro hmem
            rcases List.mem_append.mp hmem with hmem | hmem
            · exact h0.mpr hmem
            · simp at hmem
              exact absurd hmem hxi

theorem dequeue_empty {q : ObjectQueue} {h : Heap} (hh : q.head = none) :
    q.dequeue h = (none, q, h) := by
  simp [ObjectQueue.dequeue, hh]

theorem dequeue_cons {q : ObjectQueue} {h : Heap} {x : Nat} {xs : List Nat}
    (hq : QInv q h (x :: xs)) :
    (q.dequeue h).1 = some x ∧ QInv (q.dequeue h).2.1 (q.dequeue h).2.2 xs := by
  have hhead : q.head = some x := by simpa using hq.head_eq
  have hc := hq.chain
  rw [hhead] at hc
  cases hc with
  | cons hx htl =>
    rename_i nx
    have hnd := hq.nodup
    have hxxs : x ∉ xs := (List.nodup_cons.mp hnd).1
    have hnx : nx = xs.head? := by
      cases xs with
      | nil => simpa using htl.nil_ptr
      | cons y ys => exact htl.head_some
    have hres : q.dequeue h =
        (some x,
          { q with head := nx, tail := if nx = none then none else q.tail,
                   size := q.size - 1 },
          h.setProp x q.nextSym none) := by
      simp [ObjectQueue.dequeue, hhead, hx]
    rw [hres]
    refine ⟨rfl, ?_, ?_, ?_, (List.nodup_cons.mp hnd).2, ?_⟩
    · exact htl.props_agree fun y hy =>
        Heap.setProp_other _ _ _ _ _ _ (by simp; intro he; exact absurd (he ▸ hy) hxxs)
    · cases hxs : xs with
      | nil =>
        subst hxs
        have : nx = none := by simpa using hnx
        simp [this]
      | cons y ys =>
        subst hxs
        have : nx = some y := by simpa using hnx
        simp only [this]
        have ht := hq.tail_eq
        rw [List.getLast?_cons_cons] at ht
        simpa using ht
    · have := hq.size_eq
      simp only [List.length_cons] at this
      simp only []
      omega
    · intro y
      by_cases hy : y = x
      · subst hy
        simp [hxxs]
      · rw [Heap.setProp_other _ _ _ _ _ _ (by simp [hy])]
        have h0 := hq.mem_iff y
        simp only [List.mem_cons, hy, false_or] at h0
        exact h0

/-- The delete scan, started anywhere along the chain, finds a member
target and produces the unlinked state.  `A` is the already-scanned
prefix, `B` the rest of the chain. -/
theorem deleteWalk_found {q : ObjectQueue} {h : Heap} {target : Nat}
    {B : List Nat} :
    ∀ {A : List Nat} {prev cur : Option Nat} {fuel : Nat},
    (A ++ B).Nodup →
    target ∈ B →
    ChainSeg h q.nextSym q.head A cur →
    ChainSeg h q.nextSym cur B none →
    prev = A.getLast? →
    B.length ≤ fuel →
    q.tail = (A ++ B).getLast? →
    q.size = ((A ++ B).length : Int) →
    (∀ x, (h.props x q.nextSym).isSome ↔ x ∈ A ++ B) →
    (ObjectQueue.deleteWalk q.nextSym target q h prev cur fuel).1 = true ∧
    (ObjectQueue.deleteWalk q.nextSym target q h prev cur fuel).2.1.nextSym = q.nextSym ∧
    QInv (ObjectQueue.deleteWalk q.nextSym target q h prev cur fuel).2.1
      (ObjectQueue.deleteWalk q.nextSym target q h prev cur fuel).2.2
      (A ++ B.erase target) := by
  induction B with
  | nil =>
    intro A prev cur fuel hnd htar hseg1 hseg2 hprev hfuel htail hsize hmem
    simp at htar
  | cons b B' ih =>
    intro A prev cur fuel hnd htar hseg1 hseg2 hprev hfuel htail hsize hmem
    cases hseg2 with
    | cons hb htl' =>
      rename_i nb
      cases fuel with
      | zero => simp at hfuel
      | succ f =>
        by_cases hbt : b = target
        · subst hbt
          have hbB' : b ∉ B' := by
            have := List.nodup_middle.mp hnd
            exact fun hm => (List.nodup_cons.mp this).1 (List.mem_append_right _ hm)
          have herase : (b :: B').erase b = B' := List.erase_cons_head b B'
          obtain hA | ⟨A₀, p, hA⟩ := List.eq_nil_or_concat A
          · subst hA
            simp only [List.getLast?] at hprev
            subst hprev
            have hhead : q.head = some b := hseg1.nil_ptr
            by_cases hnb : nb = none
            · subst hnb
              have hB' : B' = [] := (htl'.none_start).1
              subst hB'
              have hres : ObjectQueue.deleteWalk q.nextSym b q h none (some b) (f + 1) =
                  (true, { q with head := none, tail := none, size := q.size - 1 },
                    h.setProp b q.nextSym none) := by
                simp [ObjectQueue.deleteWalk, hb]
              rw [hres, herase]
              refine ⟨rfl, rfl, .nil none, rfl, ?_, by simp, ?_⟩
              · have := hsize
                simp at this ⊢
                omega
              · intro y
                by_cases hy : y = b
                · subst hy
                  simp
                · rw [Heap.setProp_other _ _ _ _ _ _ (by simp [hy])]
                  have h0 := hmem y
                  simpa [hy] using h0
            · have hres : ObjectQueue.deleteWalk q.nextSym b q h none (some b) (f + 1) =
                  (true, { q with head := nb, size := q.size - 1 },
                    h.setProp b q.nextSym none) := by
                simp [ObjectQueue.deleteWalk, hb, hnb]
              rw [hres, herase]
              have hB' : B' ≠ [] := by
                intro hB'
                subst hB'
                exact hnb htl'.nil_ptr
              refine ⟨rfl, rfl, ?_, ?_, ?_, ?_, ?_⟩
              · exact htl'.props_agree fun y hy =>
                  Heap.setProp_other _ _ _ _ _ _
                    (by simp; intro he; exact absurd (he ▸ hy) hbB')
              · have ht := htail
                simp only [List.nil_append] at ht ⊢
                cases B' with
                | nil => exact absurd rfl hB'
                | cons c cs => rw [List.getLast?_cons_cons] at ht; exact ht
              · have := hsize
                simp at this ⊢
                omega
              · exact (List.nodup_cons.mp (by simpa using hnd)).2
              · intro y
                by_cases hy : y = b
                · subst hy
                  simp [hbB']
                · rw [Heap.setProp_other _ _ _ _ _ _ (by simp [hy])]
                  have h0 := hmem y
                  simpa [hy] using h0
          · rw [List.concat_eq_append] at hA
            subst hA
            rw [List.getLast?_concat] at hprev
            subst hprev
            have hpb : p ≠ b := by
              intro he
              subst he
              have hmid := List.nodup_middle.mp hnd
              exact (List.nodup_cons.mp hmid).1
                (List.mem_append_left _ (List.mem_append_right _ (by simp)))
            have hpB' : p ∉ B' := by
              have h1 := List.nodup_append.mp hnd
              exact fun hm => h1.2.2
                (show p ∈ A₀ ++ [p] from List.mem_append_right _ (by simp))
                (show p ∈ b :: B' from List.mem_cons_of_mem _ hm)
            have hpA₀ : p ∉ A₀ := by
              have h1 := (List.nodup_append.mp hnd).1
              have h2 := List.nodup_append.mp h1
              exact fun hm => h2.2.2 hm (by simp)
            have hbA₀ : b ∉ A₀ := by
              have h1 := List.nodup_append.mp hnd
              exact fun hm => h1.2.2 (List.mem_append_left _ hm) (by simp)
            obtain ⟨m, hsegA, hsegp⟩ := ChainSeg.append_iff.mp hseg1
            obtain ⟨hm, hpp⟩ := singleton_seg hsegp
            subst hm
            by_cases hnb : nb = none
            · subst hnb
              have hB' : B' = [] := (htl'.none_start).1
              subst hB'
              have hres : ObjectQueue.deleteWalk q.nextSym b q h (some p) (some b) (f + 1) =
                  (true, { q with tail := some p, size := q.size - 1 },
                    (h.setProp p q.nextSym (some none)).setProp b q.nextSym none) := by
                simp [ObjectQueue.deleteWalk, hb]
              rw [hres, herase]
              have hp_p : ((h.setProp p q.nextSym (some none)).setProp b q.nextSym none).props
                  p q.nextSym = some none := by
                rw [Heap.setProp_other _ _ _ _ _ _ (by simp [hpb]), Heap.setProp_same]
              have hp_b : ((h.setProp p q.nextSym (some none)).setProp b q.nextSym none).props
                  b q.nextSym = none := Heap.setProp_same _ _ _ _
              have hp_o : ∀ y, y ≠ p → y ≠ b →
                  ((h.setProp p q.nextSym (some none)).setProp b q.nextSym none).props
                    y q.nextSym = h.props y q.nextSym := by
                intro y hyp hyb
                rw [Heap.setProp_other _ _ _ _ _ _ (by simp [hyb]),
                  Heap.setProp_other _ _ _ _ _ _ (by simp [hyp])]
              refine ⟨rfl, rfl, ?_, ?_, ?_, ?_, ?_⟩
              · simp only [List.append_nil]
                refine ChainSeg.append_iff.mpr ⟨some p, ?_, seg_of_props hp_p⟩
                exact hsegA.props_agree fun y hy =>
                  hp_o y (fun he => hpA₀ (he ▸ hy)) (fun he => hbA₀ (he ▸ hy))
              · simp [List.getLast?_concat]
              · have := hsize
                simp at this ⊢
                omega
              · simpa using (List.nodup_append.mp hnd).1
              · intro y
                by_cases hyb : y = b
                · subst hyb
                  simp [hp_b, hbA₀, hpb]
                  exact fun he => absurd he.symm hpb
                · by_cases hyp : y = p
                  · subst hyp
                    simp [hp_p]
                  · rw [hp_o y hyp hyb]
                    have h0 := hmem y
                    simpa [hyb] using h0
            · have hB' : B' ≠ [] := by
                intro hB'
                subst hB'
                exact hnb htl'.nil_ptr
              have hres : ObjectQueue.deleteWalk q.nextSym b q h (some p) (some b) (f + 1) =
                  (true, { q with size := q.size - 1 },
                    (h.setProp p q.nextSym (some nb)).setProp b q.nextSym none) := by
                simp [ObjectQueue.deleteWalk, hb, hnb]
              rw [hres, herase]
              have hp_p : ((h.setProp p q.nextSym (some nb)).setProp b q.nextSym none).props
                  p q.nextSym = some nb := by
                rw [Heap.setProp_other _ _ _ _ _ _ (by simp [hpb]), Heap.setProp_same]
              have hp_b : ((h.setProp p q.nextSym (some nb)).setProp b q.nextSym none).props
                  b q.nextSym = none := Heap.setProp_same _ _ _ _
              have hp_o : ∀ y, y ≠ p → y ≠ b →
                  ((h.setProp p q.nextSym (some nb)).setProp b q.nextSym none).props
                    y q.nextSym = h.props y q.nextSym := by
                intro y hyp hyb
                rw [Heap.setProp_other _ _ _ _ _ _ (by simp [hyb]),
                  Heap.setProp_other _ _ _ _ _ _ (by simp [hyp])]
              refine ⟨rfl, rfl, ?_, ?_, ?_, ?_, ?_⟩
              · rw [List.append_assoc, List.singleton_append]
                refine ChainSeg.append_iff.mpr ⟨some p, ?_, ?_⟩
                · exact hsegA.props_agree fun y hy =>
                    hp_o y (fun he => hpA₀ (he ▸ hy)) (fun he => hbA₀ (he ▸ hy))
                · refine .cons hp_p ?_
                  exact htl'.props_agree fun y hy =>
                    hp_o y (fun he => hpB' (he ▸ hy)) (fun he => hbB' (he ▸ hy))
              · have ht := htail
                rw [List.getLast?_append_of_ne_nil _ (by simp : b :: B' ≠ [])] at ht
                rw [List.getLast?_append_of_ne_nil _ hB']
                cases B' with
                | nil => exact absurd rfl hB'
                | cons c cs => rw [List.getLast?_cons_cons] at ht; exact ht
              · have := hsize
                simp at this ⊢
                omega
              · have := List.nodup_middle.mp hnd
                exact (List.nodup_cons.mp this).2
              · intro y
                by_cases hyb : y = b
                · rw [hyb]
                  have h1 : b ∉ A₀ ++ [p] ++ B' := by
                    simp only [List.mem_append] at *
                    rintro ((hm | hm) | hm)
                    · exact hbA₀ hm
                    · simp at hm
                      exact hpb hm.symm
                    · exact hbB' hm
                  simp [hp_b]
                  exact ⟨hbA₀, fun he => hpb he.symm, hbB'⟩
                · by_cases hyp : y = p
                  · subst hyp
                    simp [hp_p]
                  · rw [hp_o y hyp hyb]
                    have h0 := hmem y
                    simp only [List.mem_append, List.mem_cons, List.mem_singleton] at h0 ⊢
                    constructor
                    · intro hs
                      rcases h0.mp hs with (hm | hm) | (hm | hm)
                      · exact Or.inl (Or.inl hm)
                      · exact Or.inl (Or.inr hm)
                      · exact absurd hm hyb
                      · exact Or.inr hm
                    · intro hm
                      apply h0.mpr
                      rcases hm with (hm | hm) | hm
                      · exact Or.inl (Or.inl hm)
                      · exact Or.inl (Or.inr hm)
                      · exact Or.inr (Or.inr hm)
        · have htar' : target ∈ B' := by
            rcases List.mem_cons.mp htar with he | hm
            · exact absurd he.symm hbt
            · exact hm
          have hassoc : A ++ [b] ++ B' = A ++ b :: B' := by
            rw [List.append_assoc, List.singleton_append]
          have hstep : ObjectQueue.deleteWalk q.nextSym target q h prev (some b) (f + 1) =
              ObjectQueue.deleteWalk q.nextSym target q h (some b) nb f := by
            simp [ObjectQueue.deleteWalk, hbt, hb]
          rw [hstep]
          have hresult := ih (A := A ++ [b])
            (by rw [hassoc]; exact hnd) htar'
            (ChainSeg.append_iff.mpr ⟨some b, hseg1 , seg_of_props hb⟩)
            htl' (List.getLast?_concat _).symm (by simpa using hfuel)
            (by rw [hassoc]; exact htail) (by rw [hassoc]; exact hsize)
            (fun x => by rw [hassoc]; exact hmem x)
          have herase2 : A ++ [b] ++ B'.erase target = A ++ (b :: B').erase target := by
            rw [List.erase_cons_tail (by simp [hbt]), List.append_assoc, List.singleton_append]
          rw [herase2] at hresult
          exact hresult

theorem JSVal.refId_eq_some {v : JSVal} {id : Nat} : v.refId = some id ↔ v = .ref id := by
  cases v <;> simp [JSVal.refId]

theorem delete_not_ref {q : ObjectQueue} {h : Heap} {v : JSVal} (hv : v.refId = none) :
    q.delete h v = (false, q, h) := by
  simp [ObjectQueue.delete, hv]

theorem delete_not_member {q : ObjectQueue} {h : Heap} {id : Nat}
    (hm : h.props id q.nextSym = none) : q.delete h (.ref id) = (false, q, h) := by
  simp [ObjectQueue.delete, JSVal.refId, hm]

theorem delete_member {q : ObjectQueue} {h : Heap} {xs : List Nat} {id : Nat}
    (hq : QInv q h xs) (hmem : id ∈ xs) :
    (q.delete h (.ref id)).1 = true ∧
    (q.delete h (.ref id)).2.1.nextSym = q.nextSym ∧
    QInv (q.delete h (.ref id)).2.1 (q.delete h (.ref id)).2.2 (xs.erase id) := by
  have hs : (h.props id q.nextSym).isSome := (hq.mem_iff id).mpr hmem
  have hred : q.delete h (.ref id) =
      ObjectQueue.deleteWalk q.nextSym id q h none q.head q.size.toNat := by
    simp [ObjectQueue.delete, JSVal.refId, hs]
  have hfuel : xs.length ≤ q.size.toNat := by
    have := hq.size_eq
    omega
  have hres := deleteWalk_found (A := []) (by simpa using hq.nodup) hmem
    (.nil q.head) hq.chain rfl hfuel (by simpa using hq.tail_eq)
    (by simpa using hq.size_eq) (fun x => by simpa using hq.mem_iff x)
  rw [hred]
  simpa using hres

theorem clearWalk_spec {symId : Nat} {xs : List Nat} :
    ∀ {h : Heap} {cur : Option Nat} {fuel : Nat},
    ChainSeg h symId cur xs none → xs.Nodup → xs.length ≤ fuel →
    ∀ x, (ObjectQueue.clearWalk symId h cur fuel).props x symId =
      if x ∈ xs then none else h.props x symId := by
  induction xs with
  | nil =>
    intro h cur fuel hc hnd hf x
    have : cur = none := hc.nil_ptr
    subst this
    cases fuel <;> simp [ObjectQueue.clearWalk]
  | cons e xs ih =>
    intro h cur fuel hc hnd hf x
    cases hc with
    | cons hp htl =>
      rename_i nx
      cases fuel with
      | zero => simp at hf
      | succ f =>
        have hexs : e ∉ xs := (List.nodup_cons.mp hnd).1
        have hred : ObjectQueue.clearWalk symId h (some e) (f + 1) =
            ObjectQueue.clearWalk symId (h.setProp e symId none) nx f := by
          simp [ObjectQueue.clearWalk, hp]
        rw [hred]
        have hchain' : ChainSeg (h.setProp e symId none) symId nx xs none :=
          htl.props_agree fun y hy =>
            Heap.setProp_other _ _ _ _ _ _ (by simp; intro he; exact absurd (he ▸ hy) hexs)
        have hrec := ih hchain' (List.nodup_cons.mp hnd).2 (by simpa using hf) x
        rw [hrec]
        by_cases hx : x ∈ xs
        · simp [hx]
        · by_cases hxe : x = e
          · subst hxe
            simp [hx]
          · rw [Heap.setProp_other _ _ _ _ _ _ (by simp [hxe])]
            simp [hx, hxe]

theorem clear_spec {q : ObjectQueue} {h : Heap} {xs : List Nat} (hq : QInv q h xs) :
    QInv (q.clear h).1 (q.clear h).2 [] := by
  have hfuel : xs.length ≤ q.size.toNat := by
    have := hq.size_eq
    omega
  have hw := clearWalk_spec hq.chain hq.nodup hfuel
  refine ⟨.nil none, rfl, rfl, List.nodup_nil, ?_⟩
  intro x
  show ((ObjectQueue.clearWalk q.nextSym h q.head q.size.toNat).props x q.nextSym).isSome = true ↔ _
  rw [hw x]
  by_cases hx : x ∈ xs
  · simp [hx]
  · have h0 := hq.mem_iff x
    simp [hx] at h0 ⊢
    exact h0

/-- Every reachable queue state satisfies the structural invariant for
some member list. -/
theorem reachable_inv {q : ObjectQueue} {h : Heap} (hr : Reachable q h) :
    ∃ xs, QInv q h xs := by
  induction hr with
  | init s h fresh => exact ⟨[], QInv.empty fresh⟩
  | @enq q h v hr ih =>
    obtain ⟨xs, hq⟩ := ih
    cases hv : v.refId with
    | none =>
      rw [enqueue_not_ref hv]
      exact ⟨xs, hq⟩
    | some id =>
      rw [JSVal.refId_eq_some.mp hv]
      by_cases hp : (h.props id q.nextSym).isSome
      · rw [enqueue_member hp]
        exact ⟨xs, hq⟩
      · have hnone : h.props id q.nextSym = none := Option.not_isSome_iff_eq_none.mp hp
        exact ⟨xs ++ [id], (enqueue_new hq hnone).2⟩
  | @deq q h hr ih =>
    obtain ⟨xs, hq⟩ := ih
    cases xs with
    | nil =>
      rw [dequeue_empty (by simpa using hq.head_eq)]
      exact ⟨[], hq⟩
    | cons x xs =>
      exact ⟨xs, (dequeue_cons hq).2⟩
  | @del q h v hr ih =>
    obtain ⟨xs, hq⟩ := ih
    cases hv : v.refId with
    | none =>
      rw [delete_not_ref hv]
      exact ⟨xs, hq⟩
    | some id =>
      rw [JSVal.refId_eq_some.mp hv]
      by_cases hp : (h.props id q.nextSym).isSome
      · exact ⟨xs.erase id, (delete_member hq ((hq.mem_iff id).mp hp)).2.2⟩
      · rw [delete_not_member (Option.not_isSome_iff_eq_none.mp hp)]
        exact ⟨xs, hq⟩
  | @clr q h hr ih =>
    obtain ⟨xs, hq⟩ := ih
    exact ⟨[], clear_spec hq⟩
  | @frame q h h' hr hag ih =>
    obtain ⟨xs, hq⟩ := ih
    exact ⟨xs, hq.frame_agree hag⟩

theorem QInv.props_none_of_not_mem {q : ObjectQueue} {h : Heap} {xs : List Nat}
    (hq : QInv q h xs) {x : Nat} (hx : x ∉ xs) : h.props x q.nextSym = none := by
  rcases hv : h.props x q.nextSym with _ | v
  · rfl
  · have := (hq.mem_iff x).mp (by rw [hv]; rfl)
    exact absurd this hx

theorem enqueue_true_iff (q : ObjectQueue) (h : Heap) (v : JSVal) :
    (q.enqueue h v).1 = true ↔ ∃ id, v = .ref id ∧ h.props id q.nextSym = none := by
  cases v with
  | ref id =>
    by_cases hp : (h.props id q.nextSym).isSome
    · rw [enqueue_member hp]
      simp only [Bool.false_eq_true, false_iff, not_exists]
      rintro x ⟨hx, hn⟩
      cases hx
      rw [hn] at hp
      simp at hp
    · have hnone := Option.not_isSome_iff_eq_none.mp hp
      refine iff_of_true ?_ ⟨id, rfl, hnone⟩
      cases htail : q.tail <;>
        simp [ObjectQueue.enqueue, JSVal.refId, hnone, htail]
  | jsNull => simp [ObjectQueue.enqueue, JSVal.refId]
  | jsUndefined => simp [ObjectQueue.enqueue, JSVal.refId]
  | prim n => simp [ObjectQueue.enqueue, JSVal.refId]

theorem enqueue_success_fields (q : ObjectQueue) (h : Heap) (id : Nat)
    (hnone : h.props id q.nextSym = none) :
    (q.enqueue h (.ref id)).2.1.size = q.size + 1 ∧
    (q.enqueue h (.ref id)).2.1.tail = some id ∧
    (q.enqueue h (.ref id)).2.2.props id q.nextSym = some none := by
  cases htail : q.tail with
  | none =>
    simp [ObjectQueue.enqueue, JSVal.refId, hnone, htail]
  | some t =>
    simp [ObjectQueue.enqueue, JSVal.refId, hnone, htail]

theorem enqueue_nextSym (q : ObjectQueue) (h : Heap) (v : JSVal) :
    (q.enqueue h v).2.1.nextSym = q.nextSym := by
  cases v with
  | ref id =>
    by_cases hp : (h.props id q.nextSym).isSome
    · rw [enqueue_member hp]
    · have hnone := Option.not_isSome_iff_eq_none.mp hp
      cases htail : q.tail <;> simp [ObjectQueue.enqueue, JSVal.refId, hnone, htail]
  | jsNull => rfl
  | jsUndefined => rfl
  | prim n => rfl

theorem dequeue_nextSym (q : ObjectQueue) (h : Heap) :
    (q.dequeue h).2.1.nextSym = q.nextSym := by
  cases hh : q.head <;> simp [ObjectQueue.dequeue, hh]

theorem enqueue_frame (q : ObjectQueue) (h : Heap) (v : JSVal) (i s : Nat)
    (hs : s ≠ q.nextSym) : (q.enqueue h v).2.2.props i s = h.props i s := by
  cases v with
  | ref id =>
    by_cases hp : (h.props id q.nextSym).isSome
    · rw [enqueue_member hp]
    · have hnone := Option.not_isSome_iff_eq_none.mp hp
      cases htail : q.tail with
      | none =>
        simp only [ObjectQueue.enqueue, JSVal.refId, hnone, Option.isSome_none,
          Bool.false_eq_true, if_false, htail]
        rw [Heap.setProp_other _ _ _ _ _ _ (by simp [hs])]
      | some t =>
        simp only [ObjectQueue.enqueue, JSVal.refId, hnone, Option.isSome_none,
          Bool.false_eq_true, if_false, htail]
        rw [Heap.setProp_other _ _ _ _ _ _ (by simp [hs]),
          Heap.setProp_other _ _ _ _ _ _ (by simp [hs])]
  | jsNull => rfl
  | jsUndefined => rfl
  | prim n => rfl

theorem dequeue_frame (q : ObjectQueue) (h : Heap) (i s : Nat)
    (hs : s ≠ q.nextSym) : (q.dequeue h).2.2.props i s = h.props i s := by
  cases hh : q.head with
  | none => rw [dequeue_empty hh]
  | some hd =>
    simp only [ObjectQueue.dequeue, hh]
    rw [Heap.setProp_other _ _ _ _ _ _ (by simp [hs])]

theorem walk_agree {symId : Nat} {h h' : Heap}
    (hag : ∀ i, h'.props i symId = h.props i symId) :
    ∀ (fuel : Nat) (cur : Option Nat),
      ObjectQueue.walk symId h' cur fuel = ObjectQueue.walk symId h cur fuel := by
  intro fuel
  induction fuel with
  | zero => intro cur; cases cur <;> rfl
  | succ f ih =>
    intro cur
    cases cur with
    | none => rfl
    | some e =>
      simp only [ObjectQueue.walk, hag e]
      rw [ih]

theorem iterWalk_eq_walk (symId : Nat) (h : Heap) :
    ∀ (fuel : Nat) (cur : Option Nat),
      ObjectQueue.iterWalk symId h cur fuel = ObjectQueue.walk symId h cur fuel := by
  intro fuel
  induction fuel with
  | zero => intro cur; cases cur <;> rfl
  | succ f ih =>
    intro cur
    cases cur with
    | none => rfl
    | some e =>
      simp only [ObjectQueue.iterWalk, ObjectQueue.walk]
      rw [ih]

theorem enqueue_size_step (q : ObjectQueue) (h : Heap) (v : JSVal) :
    (q.enqueue h v).2.1.size = q.size + (if (q.enqueue h v).1 then 1 else 0) := by
  cases v with
  | ref id =>
    by_cases hp : (h.props id q.nextSym).isSome
    · rw [enqueue_member hp]
      simp
    · have hnone := Option.not_isSome_iff_eq_none.mp hp
      cases htail : q.tail <;> simp [ObjectQueue.enqueue, JSVal.refId, hnone, htail]
  | jsNull => simp [ObjectQueue.enqueue, JSVal.refId]
  | jsUndefined => simp [ObjectQueue.enqueue, JSVal.refId]
  | prim n => simp [ObjectQueue.enqueue, JSVal.refId]

theorem enqueueMany_size : ∀ (vs : List JSVal) (q : ObjectQueue) (h : Heap),
    (q.enqueueMany h vs).2.1.size = q.size + ((q.enqueueMany h vs).1 : Int) := by
  intro vs
  induction vs with
  | nil => intro q h; simp [ObjectQueue.enqueueMany]
  | cons v rest ih =>
    intro q h
    simp only [ObjectQueue.enqueueMany]
    rw [ih, enqueue_size_step q h v]
    cases hr : (q.enqueue h v).1
    · simp
    · push_cast
      ring

/-- C10: in every queue state, a full pass of the iterator (with no
mutation during the pass) yields exactly the entries, in the same order,
that toArray returns in that state. -/
theorem iteration_agrees_with_toArray (q : ObjectQueue) (h : Heap) :
    q.iterAll h = q.toArray h :=
  iterWalk_eq_walk q.nextSym h q.size.toNat q.head

/-- C3: in every reachable queue state, head is none iff tail is none iff
size is zero. -/
theorem empty_iff_invariant {q : ObjectQueue} {h : Heap} (hr : Reachable q h) :
    (q.head = none ↔ q.size = 0) ∧ (q.tail = none ↔ q.size = 0) := by
  obtain ⟨xs, hq⟩ := reachable_inv hr
  have hh := hq.head_eq
  have ht := hq.tail_eq
  have hs := hq.size_eq
  cases xs with
  | nil => rw [hh, ht, hs]; simp
  | cons x xs =>
    refine ⟨iff_of_false ?_ ?_, iff_of_false ?_ ?_⟩
    · rw [hh]; simp
    · rw [hs]; simp only [List.length_cons]; omega
    · rw [ht]; simp [List.getLast?_eq_none_iff]
    · rw [hs]; simp only [List.length_cons]; omega

/-- C3 witness: a freshly constructed queue is reachable and satisfies the
equivalence. -/
theorem empty_iff_invariant_witness :
    ((ObjectQueue.mk0 0).head = none ↔ (ObjectQueue.mk0 0).size = 0) ∧
    ((ObjectQueue.mk0 0).tail = none ↔ (ObjectQueue.mk0 0).size = 0) :=
  empty_iff_invariant (.init 0 ⟨fun _ _ => none⟩ fun _ => rfl)

/-- C4: in every reachable queue state, has returns true exactly on the
entries present (by identity) in the toArray snapshot. -/
theorem has_iff_mem_toArray {q : ObjectQueue} {h : Heap} (hr : Reachable q h) (v : JSVal) :
    q.has h v = true ↔ ∃ id, v = .ref id ∧ id ∈ q.toArray h := by
  obtain ⟨xs, hq⟩ := reachable_inv hr
  rw [hq.toArray_eq]
  cases v with
  | ref id =>
    show (h.props id q.nextSym).isSome = true ↔ _
    constructor
    · intro hs
      exact ⟨id, rfl, (hq.mem_iff id).mp hs⟩
    · rintro ⟨id', heq, hmem⟩
      cases heq
      exact (hq.mem_iff id).mpr hmem
  | jsNull => simp [ObjectQueue.has, JSVal.refId]
  | jsUndefined => simp [ObjectQueue.has, JSVal.refId]
  | prim n => simp [ObjectQueue.has, JSVal.refId]

/-- C4 witness: instantiated on a freshly constructed queue and an entry. -/
theorem has_iff_mem_toArray_witness :
    (ObjectQueue.mk0 0).has ⟨fun _ _ => none⟩ (.ref 4) = true ↔
      ∃ id, JSVal.ref 4 = JSVal.ref id ∧
        id ∈ (ObjectQueue.mk0 0).toArray ⟨fun _ _ => none⟩ :=
  has_iff_mem_toArray (.init 0 ⟨fun _ _ => none⟩ fun _ => rfl) (.ref 4)

/-- C5: every rejected operation returns its failure sentinel and leaves
the queue object and the whole heap exactly unchanged: has/getNext/
enqueue/delete on an invalid entry, dequeue on an empty queue, and delete
of a non-member. -/
theorem rejection_atomicity (q : ObjectQueue) (h : Heap) :
    (∀ v, v.refId = none →
      q.has h v = false ∧ q.getNext h v = none ∧
      q.enqueue h v = (false, q, h) ∧ q.delete h v = (false, q, h)) ∧
    (q.head = none → q.dequeue h = (none, q, h)) ∧
    (∀ id, h.props id q.nextSym = none → q.delete h (.ref id) = (false, q, h)) := by
  refine ⟨?_, dequeue_empty, fun id hid => delete_not_member hid⟩
  intro v hv
  exact ⟨by simp [ObjectQueue.has, hv], by simp [ObjectQueue.getNext, hv],
    enqueue_not_ref hv, delete_not_ref hv⟩

/-- C5 witness: instantiated on a fresh queue, the null entry, an empty
queue dequeue and a non-member delete. -/
theorem rejection_atomicity_witness :
    ((ObjectQueue.mk0 0).has ⟨fun _ _ => none⟩ .jsNull = false ∧
      (ObjectQueue.mk0 0).getNext ⟨fun _ _ => none⟩ .jsNull = none ∧
      (ObjectQueue.mk0 0).enqueue ⟨fun _ _ => none⟩ .jsNull =
        (false, ObjectQueue.mk0 0, ⟨fun _ _ => none⟩) ∧
      (ObjectQueue.mk0 0).delete ⟨fun _ _ => none⟩ .jsNull =
        (false, ObjectQueue.mk0 0, ⟨fun _ _ => none⟩)) ∧
    (ObjectQueue.mk0 0).dequeue ⟨fun _ _ => none⟩ =
      (none, ObjectQueue.mk0 0, ⟨fun _ _ => none⟩) ∧
    (ObjectQueue.mk0 0).delete ⟨fun _ _ => none⟩ (.ref 5) =
      (false, ObjectQueue.mk0 0, ⟨fun _ _ => none⟩) :=
  ⟨(rejection_atomicity (ObjectQueue.mk0 0) ⟨fun _ _ => none⟩).1 .jsNull rfl,
   (rejection_atomicity (ObjectQueue.mk0 0) ⟨fun _ _ => none⟩).2.1 rfl,
   (rejection_atomicity (ObjectQueue.mk0 0) ⟨fun _ _ => none⟩).2.2 5 rfl⟩

/-- C9 counterexample: the claim that the minimal variant (src/index.ts)
performs no uniqueness rejection is false — there is no state and present
entry that its enqueue accepts. -/
theorem ts_enqueue_no_duplicate_acceptance :
    ¬ ∃ (q : ObjectQueue) (h : Heap) (id : Nat),
        (h.props id q.nextSym).isSome = true ∧
        (ObjectQueueTS.enqueue q h (.ref id)).1 = true := by
  rintro ⟨q, h, id, hp, ht⟩
  simp [ObjectQueueTS.enqueue, JSVal.refId, hp] at ht

/-- C9 (amended): the minimal variant's enqueue agrees with the full
variant's enqueue on every input, and in particular rejects an entry
whose link state for this queue is already present. -/
theorem ts_enqueue_rejects_duplicates (q : ObjectQueue) (h : Heap) (v : JSVal) :
    ObjectQueueTS.enqueue q h v = q.enqueue h v ∧
    (∀ id, v = .ref id → (h.props id q.nextSym).isSome = true →
      (ObjectQueueTS.enqueue q h v).1 = false) := by
  constructor
  · rfl
  · rintro id rfl hp
    simp [ObjectQueueTS.enqueue, JSVal.refId, hp]

/-- C9 witness: a queue whose symbol is 0 with entry 1 present; the
minimal variant's enqueue rejects it. -/
theorem ts_enqueue_rejects_duplicates_witness :
    ObjectQueueTS.enqueue (ObjectQueue.mk0 0)
        ⟨fun i s => if i = 1 ∧ s = 0 then some none else none⟩ (.ref 1) =
      (ObjectQueue.mk0 0).enqueue
        ⟨fun i s => if i = 1 ∧ s = 0 then some none else none⟩ (.ref 1) ∧
    (ObjectQueueTS.enqueue (ObjectQueue.mk0 0)
        ⟨fun i s => if i = 1 ∧ s = 0 then some none else none⟩ (.ref 1)).1 = false :=
  ⟨(ts_enqueue_rejects_duplicates (ObjectQueue.mk0 0)
      ⟨fun i s => if i = 1 ∧ s = 0 then some none else none⟩ (.ref 1)).1,
   (ts_enqueue_rejects_duplicates (ObjectQueue.mk0 0)
      ⟨fun i s => if i = 1 ∧ s = 0 then some none else none⟩ (.ref 1)).2 1 rfl (by decide)⟩

/-- C2: enqueue returns true exactly when the entry is a non-null
reference type whose link state for this queue is absent; on success the
size grows by one, the entry becomes the tail with the terminator as its
link, and a second enqueue of the same identity returns false leaving the
size grown by exactly one overall. -/
theorem enqueue_set_semantics (q : ObjectQueue) (h : Heap) (v : JSVal) :
    ((q.enqueue h v).1 = true ↔ ∃ id, v = .ref id ∧ h.props id q.nextSym = none) ∧
    (∀ id, v = .ref id → h.props id q.nextSym = none →
      (q.enqueue h v).2.1.size = q.size + 1 ∧
      (q.enqueue h v).2.1.tail = some id ∧
      (q.enqueue h v).2.2.props id q.nextSym = some none ∧
      ((q.enqueue h v).2.1.enqueue (q.enqueue h v).2.2 v).1 = false ∧
      ((q.enqueue h v).2.1.enqueue (q.enqueue h v).2.2 v).2.1.size = q.size + 1) := by
  refine ⟨enqueue_true_iff q h v, ?_⟩
  rintro id rfl hnone
  obtain ⟨hsz, htl, hp⟩ := enqueue_success_fields q h id hnone
  have hp2 : ((q.enqueue h (.ref id)).2.2.props id
      (q.enqueue h (.ref id)).2.1.nextSym).isSome = true := by
    rw [enqueue_nextSym, hp]
    rfl
  have hsnd := enqueue_member hp2
  exact ⟨hsz, htl, hp, by rw [hsnd], by rw [hsnd]; exact hsz⟩

/-- C2 witness: instantiated on a fresh queue and entry 7. -/
theorem enqueue_set_semantics_witness :
    (((ObjectQueue.mk0 0).enqueue ⟨fun _ _ => none⟩ (.ref 7)).1 = true ↔
      ∃ id, JSVal.ref 7 = JSVal.ref id ∧
        (Heap.mk fun _ _ => none).props id (ObjectQueue.mk0 0).nextSym = none) ∧
    (((ObjectQueue.mk0 0).enqueue ⟨fun _ _ => none⟩ (.ref 7)).2.1.size =
        (ObjectQueue.mk0 0).size + 1 ∧
      ((ObjectQueue.mk0 0).enqueue ⟨fun _ _ => none⟩ (.ref 7)).2.1.tail = some 7 ∧
      ((ObjectQueue.mk0 0).enqueue ⟨fun _ _ => none⟩ (.ref 7)).2.2.props 7
        (ObjectQueue.mk0 0).nextSym = some none ∧
      (((ObjectQueue.mk0 0).enqueue ⟨fun _ _ => none⟩ (.ref 7)).2.1.enqueue
        ((ObjectQueue.mk0 0).enqueue ⟨fun _ _ => none⟩ (.ref 7)).2.2 (.ref 7)).1 = false ∧
      (((ObjectQueue.mk0 0).enqueue ⟨fun _ _ => none⟩ (.ref 7)).2.1.enqueue
        ((ObjectQueue.mk0 0).enqueue ⟨fun _ _ => none⟩ (.ref 7)).2.2 (.ref 7)).2.1.size =
        (ObjectQueue.mk0 0).size + 1) :=
  ⟨(enqueue_set_semantics (ObjectQueue.mk0 0) ⟨fun _ _ => none⟩ (.ref 7)).1,
   (enqueue_set_semantics (ObjectQueue.mk0 0) ⟨fun _ _ => none⟩ (.ref 7)).2 7 rfl rfl⟩

/-- C6: deleting a member of a reachable queue returns true, decrements
size by one, clears the member's link state, and leaves the remaining
members in their prior relative order, with head and tail of the erased
order. -/
theorem delete_member_correct {q : ObjectQueue} {h : Heap} (hr : Reachable q h) (id : Nat)
    (hmem : q.has h (.ref id) = true) :
    (q.delete h (.ref id)).1 = true ∧
    (q.delete h (.ref id)).2.1.size = q.size - 1 ∧
    (q.delete h (.ref id)).2.2.props id q.nextSym = none ∧
    (q.delete h (.ref id)).2.1.toArray (q.delete h (.ref id)).2.2 = (q.toArray h).erase id ∧
    (q.delete h (.ref id)).2.1.head = ((q.toArray h).erase id).head? ∧
    (q.delete h (.ref id)).2.1.tail = ((q.toArray h).erase id).getLast? := by
  obtain ⟨xs, hq⟩ := reachable_inv hr
  have hmem' : id ∈ xs := (hq.mem_iff id).mp (by
    simpa [ObjectQueue.has, JSVal.refId] using hmem)
  obtain ⟨hb, hns, hq'⟩ := delete_member hq hmem'
  rw [hq.toArray_eq]
  refine ⟨hb, ?_, ?_, hq'.toArray_eq, ?_, ?_⟩
  · have h1 := hq'.size_eq
    have h2 := hq.size_eq
    have h3 : (xs.erase id).length = xs.length - 1 := List.length_erase_of_mem hmem'
    have h4 : 0 < xs.length := List.length_pos_of_mem hmem'
    rw [h3] at h1
    omega
  · rw [← hns]
    refine hq'.props_none_of_not_mem ?_
    intro hin
    exact absurd ((hq.nodup.mem_erase_iff.mp hin).1) (by simp)
  · exact hq'.head_eq
  · exact hq'.tail_eq

/-- C6 witness: a reachable two-element queue from which the head entry is
deleted. -/
theorem delete_member_correct_witness :
    (let st := ((ObjectQueue.mk0 0).enqueue ⟨fun _ _ => none⟩ (.ref 3)).2
     (st.1.delete st.2 (.ref 3)).1 = true ∧
     (st.1.delete st.2 (.ref 3)).2.1.size = st.1.size - 1 ∧
     (st.1.delete st.2 (.ref 3)).2.2.props 3 st.1.nextSym = none ∧
     (st.1.delete st.2 (.ref 3)).2.1.toArray (st.1.delete st.2 (.ref 3)).2.2 =
       (st.1.toArray st.2).erase 3 ∧
     (st.1.delete st.2 (.ref 3)).2.1.head = ((st.1.toArray st.2).erase 3).head? ∧
     (st.1.delete st.2 (.ref 3)).2.1.tail = ((st.1.toArray st.2).erase 3).getLast?) :=
  delete_member_correct
    (Reachable.enq (.ref 3) (.init 0 ⟨fun _ _ => none⟩ fun _ => rfl)) 3 (by decide)

/-- C7: with two queue instances holding distinct private symbols, a
fresh entry enqueues into both successfully, and a subsequent dequeue on
the first queue leaves the second queue's membership test and snapshot
unchanged. -/
theorem multi_queue_independence (qa qb : ObjectQueue) (h : Heap) (x : Nat)
    (hsym : qa.nextSym ≠ qb.nextSym)
    (hxa : h.props x qa.nextSym = none) (hxb : h.props x qb.nextSym = none) :
    (qa.enqueue h (.ref x)).1 = true ∧
    (qb.enqueue (qa.enqueue h (.ref x)).2.2 (.ref x)).1 = true ∧
    (qb.enqueue (qa.enqueue h (.ref x)).2.2 (.ref x)).2.1.has
      ((qa.enqueue h (.ref x)).2.1.dequeue
        (qb.enqueue (qa.enqueue h (.ref x)).2.2 (.ref x)).2.2).2.2 (.ref x) = true ∧
    (qb.enqueue (qa.enqueue h (.ref x)).2.2 (.ref x)).2.1.toArray
      ((qa.enqueue h (.ref x)).2.1.dequeue
        (qb.enqueue (qa.enqueue h (.ref x)).2.2 (.ref x)).2.2).2.2 =
    (qb.enqueue (qa.enqueue h (.ref x)).2.2 (.ref x)).2.1.toArray
      (qb.enqueue (qa.enqueue h (.ref x)).2.2 (.ref x)).2.2 := by
  have h1 : (qa.enqueue h (.ref x)).1 = true :=
    (enqueue_true_iff qa h (.ref x)).mpr ⟨x, rfl, hxa⟩
  have hxb1 : (qa.enqueue h (.ref x)).2.2.props x qb.nextSym = none := by
    rw [enqueue_frame qa h (.ref x) x qb.nextSym (Ne.symm hsym)]
    exact hxb
  have h2 : (qb.enqueue (qa.enqueue h (.ref x)).2.2 (.ref x)).1 = true :=
    (enqueue_true_iff qb _ (.ref x)).mpr ⟨x, rfl, hxb1⟩
  have hset := (enqueue_success_fields qb (qa.enqueue h (.ref x)).2.2 x hxb1).2.2
  have hsyma : (qa.enqueue h (.ref x)).2.1.nextSym = qa.nextSym := enqueue_nextSym qa h _
  have hsymb : (qb.enqueue (qa.enqueue h (.ref x)).2.2 (.ref x)).2.1.nextSym = qb.nextSym :=
    enqueue_nextSym qb _ _
  have hfr : ∀ i,
      ((qa.enqueue h (.ref x)).2.1.dequeue
        (qb.enqueue (qa.enqueue h (.ref x)).2.2 (.ref x)).2.2).2.2.props i qb.nextSym =
      (qb.enqueue (qa.enqueue h (.ref x)).2.2 (.ref x)).2.2.props i qb.nextSym := by
    intro i
    refine dequeue_frame _ _ i qb.nextSym ?_
    rw [hsyma]
    exact Ne.symm hsym
  refine ⟨h1, h2, ?_, ?_⟩
  · show (_ : Option (Option Nat)).isSome = true
    rw [hsymb, hfr x, hset]
    rfl
  · show ObjectQueue.walk _ _ _ _ = ObjectQueue.walk _ _ _ _
    rw [hsymb]
    exact walk_agree hfr _ _

/-- C7 witness: two fresh queues with symbols 0 and 1 and entry 9. -/
theorem multi_queue_independence_witness :
    (let qa := ObjectQueue.mk0 0
     let qb := ObjectQueue.mk0 1
     let h : Heap := ⟨fun _ _ => none⟩
     (qa.enqueue h (.ref 9)).1 = true ∧
     (qb.enqueue (qa.enqueue h (.ref 9)).2.2 (.ref 9)).1 = true ∧
     (qb.enqueue (qa.enqueue h (.ref 9)).2.2 (.ref 9)).2.1.has
       ((qa.enqueue h (.ref 9)).2.1.dequeue
         (qb.enqueue (qa.enqueue h (.ref 9)).2.2 (.ref 9)).2.2).2.2 (.ref 9) = true ∧
     (qb.enqueue (qa.enqueue h (.ref 9)).2.2 (.ref 9)).2.1.toArray
       ((qa.enqueue h (.ref 9)).2.1.dequeue
         (qb.enqueue (qa.enqueue h (.ref 9)).2.2 (.ref 9)).2.2).2.2 =
     (qb.enqueue (qa.enqueue h (.ref 9)).2.2 (.ref 9)).2.1.toArray
       (qb.enqueue (qa.enqueue h (.ref 9)).2.2 (.ref 9)).2.2) :=
  multi_queue_independence (ObjectQueue.mk0 0) (ObjectQueue.mk0 1)
    ⟨fun _ _ => none⟩ 9 (by decide) rfl rfl

/-- C1: starting from a freshly constructed queue, enqueueing three
distinct reference entries and then dequeuing four times yields the three
entries in insertion order followed by none. -/
theorem fifo_order (s e1 e2 e3 : Nat) (h : Heap)
    (fresh : ∀ i, h.props i s = none)
    (h12 : e1 ≠ e2) (h13 : e1 ≠ e3) (h23 : e2 ≠ e3) :
    (let r1 := (ObjectQueue.mk0 s).enqueue h (.ref e1)
     let r2 := r1.2.1.enqueue r1.2.2 (.ref e2)
     let r3 := r2.2.1.enqueue r2.2.2 (.ref e3)
     dequeueRun 4 r3.2.1 r3.2.2 = [some e1, some e2, some e3, none]) := by
  intro r1 r2 r3
  have hq0 : QInv (ObjectQueue.mk0 s) h [] := QInv.empty fresh
  have hq1 : QInv r1.2.1 r1.2.2 [e1] := by
    have hstep := (enqueue_new hq0 (fresh e1)).2
    simpa using hstep
  have hne2 : e2 ∉ [e1] := by
    simp only [List.mem_singleton]
    exact fun he => h12 he.symm
  have hq2 : QInv r2.2.1 r2.2.2 [e1, e2] := by
    have hstep := (enqueue_new hq1 (hq1.props_none_of_not_mem hne2)).2
    simpa using hstep
  have hne3 : e3 ∉ [e1, e2] := by
    intro hm
    rcases List.mem_cons.mp hm with he | hm2
    · exact h13 he.symm
    · exact h23 (List.mem_singleton.mp hm2).symm
  have hq3 : QInv r3.2.1 r3.2.2 [e1, e2, e3] := by
    have hstep := (enqueue_new hq2 (hq2.props_none_of_not_mem hne3)).2
    simpa using hstep
  obtain ⟨hd1, hq4⟩ := dequeue_cons hq3
  obtain ⟨hd2, hq5⟩ := dequeue_cons hq4
  obtain ⟨hd3, hq6⟩ := dequeue_cons hq5
  have hhead : ((((r3.2.1.dequeue r3.2.2).2.1.dequeue
      (r3.2.1.dequeue r3.2.2).2.2).2.1.dequeue
      ((r3.2.1.dequeue r3.2.2).2.1.dequeue
        (r3.2.1.dequeue r3.2.2).2.2).2.2).2.1).head = none := by
    simpa using hq6.head_eq
  simp only [dequeueRun]
  rw [hd1, hd2, hd3, dequeue_empty hhead]

/-- C1 witness: entries 1, 2, 3 through a fresh queue with symbol 0. -/
theorem fifo_order_witness :
    (let r1 := (ObjectQueue.mk0 0).enqueue ⟨fun _ _ => none⟩ (.ref 1)
     let r2 := r1.2.1.enqueue r1.2.2 (.ref 2)
     let r3 := r2.2.1.enqueue r2.2.2 (.ref 3)
     dequeueRun 4 r3.2.1 r3.2.2 = [some 1, some 2, some 3, none]) :=
  fifo_order 0 1 2 3 ⟨fun _ _ => none⟩ (fun _ => rfl)
    (by decide) (by decide) (by decide)

theorem isNone_congr_of_isSome_iff {a b : Option (Option Nat)}
    (hab : a.isSome = true ↔ b.isSome = true) : a.isNone = b.isNone := by
  cases a <;> cases b <;> simp_all

theorem card_insert_erase (s : Finset Nat) (a : Nat) :
    (insert a s).card = (s.erase a).card + 1 := by
  have h1 : insert a s = insert a (s.erase a) := by
    ext x
    simp only [Finset.mem_insert, Finset.mem_erase]
    constructor
    · rintro (rfl | hx)
      · exact Or.inl rfl
      · by_cases hxa : x = a
        · exact Or.inl hxa
        · exact Or.inr ⟨hxa, hx⟩
    · rintro (rfl | ⟨hxa, hx⟩)
      · exact Or.inl rfl
      · exact Or.inr hx
  rw [h1, Finset.card_insert_of_not_mem (Finset.not_mem_erase a s)]

/-- The count returned by enqueueMany on an invariant-satisfying state is
the number of distinct valid reference entries of the input that were not
already members. -/
theorem enqueueMany_count_inv : ∀ (vs : List JSVal) {q : ObjectQueue} {h : Heap}
    {xs : List Nat}, QInv q h xs →
    (q.enqueueMany h vs).1 =
      ((vs.filterMap JSVal.refId).filter
        (fun id => (h.props id q.nextSym).isNone)).toFinset.card := by
  intro vs
  induction vs with
  | nil =>
    intro q h xs hq
    simp [ObjectQueue.enqueueMany]
  | cons v rest ih =>
    intro q h xs hq
    simp only [ObjectQueue.enqueueMany]
    cases v with
    | jsNull =>
      rw [enqueue_not_ref (v := .jsNull) rfl]
      simpa [List.filterMap_cons, JSVal.refId] using ih hq
    | jsUndefined =>
      rw [enqueue_not_ref (v := .jsUndefined) rfl]
      simpa [List.filterMap_cons, JSVal.refId] using ih hq
    | prim n =>
      rw [enqueue_not_ref (v := .prim n) rfl]
      simpa [List.filterMap_cons, JSVal.refId] using ih hq
    | ref id =>
      by_cases hp : (h.props id q.nextSym).isSome
      · rw [enqueue_member hp]
        have hnn : (h.props id q.nextSym).isNone = false := by
          rcases hv : h.props id q.nextSym with _ | v
          · rw [hv] at hp; simp at hp
          · rfl
        simpa [List.filterMap_cons, JSVal.refId, List.filter_cons, hnn] using ih hq
      · have hnone := Option.not_isSome_iff_eq_none.mp hp
        have htrue := (enqueue_new hq hnone).1
        have hq' := (enqueue_new hq hnone).2
        rw [htrue]
        have hrec := ih hq'
        have hsym' : (q.enqueue h (.ref id)).2.1.nextSym = q.nextSym :=
          enqueue_nextSym q h _
        have hpoint : ∀ y,
            ((q.enqueue h (.ref id)).2.2.props y (q.enqueue h (.ref id)).2.1.nextSym).isNone =
            ((h.props y q.nextSym).isNone && !(y == id)) := by
          intro y
          by_cases hy : y = id
          · subst hy
            have hset := (enqueue_success_fields q h y hnone).2.2
            rw [hsym', hset, hnone]
            simp
          · have hiff : ((q.enqueue h (.ref id)).2.2.props y
                (q.enqueue h (.ref id)).2.1.nextSym).isSome = true ↔
                (h.props y q.nextSym).isSome = true := by
              rw [hq'.mem_iff y, hq.mem_iff y]
              simp [List.mem_append, hy]
            rw [isNone_congr_of_isSome_iff hiff]
            simp [hy]
        have hfeq : (rest.filterMap JSVal.refId).filter
            (fun y => ((q.enqueue h (.ref id)).2.2.props y
              (q.enqueue h (.ref id)).2.1.nextSym).isNone) =
            ((rest.filterMap JSVal.refId).filter
              (fun y => (h.props y q.nextSym).isNone)).filter (fun y => !(y == id)) := by
          rw [List.filter_filter]
          exact List.filter_congr fun y _ => by rw [hpoint y, Bool.and_comm]
        rw [hrec, hfeq]
        have hnid : (h.props id q.nextSym).isNone = true := by rw [hnone]; rfl
        have hlist : ((JSVal.ref id :: rest).filterMap JSVal.refId).filter
            (fun y => (h.props y q.nextSym).isNone) =
            id :: ((rest.filterMap JSVal.refId).filter
              (fun y => (h.props y q.nextSym).isNone)) := by
          simp [List.filterMap_cons, JSVal.refId, List.filter_cons, hnid]
        rw [hlist, List.toFinset_cons]
        have herase : (((rest.filterMap JSVal.refId).filter
            (fun y => (h.props y q.nextSym).isNone)).filter
              (fun y => !(y == id))).toFinset =
            ((rest.filterMap JSVal.refId).filter
              (fun y => (h.props y q.nextSym).isNone)).toFinset.erase id := by
          ext y
          simp only [List.mem_toFinset, List.mem_filter, Finset.mem_erase,
            Bool.not_eq_true', beq_eq_false_iff_ne]
          tauto
        rw [herase, card_insert_erase]
        simp

/-- Reachability is closed under enqueueMany, since it applies enqueue to
each element in order. -/
theorem reachable_enqueueMany : ∀ (vs : List JSVal) {q : ObjectQueue} {h : Heap},
    Reachable q h →
    Reachable (q.enqueueMany h vs).2.1 (q.enqueueMany h vs).2.2 := by
  intro vs
  induction vs with
  | nil => intro q h hr; exact hr
  | cons v rest ih =>
    intro q h hr
    exact ih (hr.enq v)

/-- C8: enqueueMany returns the number of successful enqueues — the size
grows by exactly the returned count — and on a reachable state that count
is the number of distinct valid reference entries of the input that were
not already members, so repeated identities are counted at most once. -/
theorem enqueueMany_count_spec {q : ObjectQueue} {h : Heap} (hr : Reachable q h)
    (vs : List JSVal) :
    (q.enqueueMany h vs).2.1.size = q.size + ((q.enqueueMany h vs).1 : Int) ∧
    (q.enqueueMany h vs).1 =
      ((vs.filterMap JSVal.refId).filter
        (fun id => (h.props id q.nextSym).isNone)).toFinset.card := by
  obtain ⟨xs, hq⟩ := reachable_inv hr
  exact ⟨enqueueMany_size vs q h, enqueueMany_count_inv vs hq⟩

/-- C8 witness: with entry 1 already enqueued, enqueueMany over entries
1, 2, 1, 3 counts only the genuinely new identities. -/
theorem enqueueMany_count_spec_witness :
    (let st := ((ObjectQueue.mk0 0).enqueue ⟨fun _ _ => none⟩ (.ref 1)).2
     let vs : List JSVal := [.ref 1, .ref 2, .ref 1, .ref 3]
     (st.1.enqueueMany st.2 vs).2.1.size = st.1.size + ((st.1.enqueueMany st.2 vs).1 : Int) ∧
     (st.1.enqueueMany st.2 vs).1 =
       ((vs.filterMap JSVal.refId).filter
         (fun id => (st.2.props id st.1.nextSym).isNone)).toFinset.card) :=
  enqueueMany_count_spec
    (Reachable.enq (.ref 1) (.init 0 ⟨fun _ _ => none⟩ fun _ => rfl))
    [.ref 1, .ref 2, .ref 1, .ref 3]
